import Mathlib

/-
  Verification development for the TradingAgents orchestration core.

  The repository's own source (src/main.py) is entrypoint glue: it builds a
  configuration, constructs a TradingAgentsGraph, calls
  `ta.propagate("NVDA", "2024-05-10")` and prints the decision.  The
  orchestration core itself (pipeline orchestrator, debate controller,
  memory store) lives outside the shown source, so the definitions below are
  modelled from the specification's words, as noted in each doc comment.
  Machine reals of the spec (similarity scores, returns) are modelled with ℚ,
  keeping every definition executable.
-/

namespace TradingAgents

/-- Modelled from the spec (§3 Decision): the action label of a decision. -/
inductive Action where
  | BUY
  | SELL
  | HOLD
deriving DecidableEq

/-- Modelled from the spec (§3 Decision): immutable decision value
`{action, rationale, confidence}`; confidence is optional. -/
structure Decision where
  action : Action
  rationale : String
  confidence : Option ℚ
deriving DecidableEq

/-- Modelled from the spec (§3 MemoryRecord): persisted entity of the Memory
Store.  The spec requires the store to record which embedding model produced
each vector, held here in `embedding_space`. -/
structure MemoryRecord where
  id : Nat
  situation_embedding : List ℚ
  situation_text : String
  decision : Decision
  outcome_return : Option ℚ
  created_at : Nat
  embedding_space : String
deriving DecidableEq

/-- Modelled from the spec (§4.3 Memory Store): the durable store.  `next_id`
is the monotone counter used both as record id and as the `created_at`
timestamp (a logical clock); `embedding_space` is the configured embedding
model identifier, fixed for the lifetime of the store. -/
structure MemoryStore where
  records : List MemoryRecord
  next_id : Nat
  embedding_space : String
deriving DecidableEq

/-- Modelled from the spec (§4.3, §7): memory-subsystem error taxonomy. -/
inductive MemError where
  | embeddingSpaceMismatch
  | alreadyReflectedError
  | noMatchingRecordError
deriving DecidableEq

/-- Dot product of two embedding vectors (componentwise over the common
length). -/
def dotL (a b : List ℚ) : ℚ :=
  (List.zipWith (· * ·) a b).sum

/-- Signed square, `x * |x|`: a strictly monotone function on ℚ, used to
compare cosine similarities exactly without square roots. -/
def ssq (x : ℚ) : ℚ := x * |x|

/-- Exact similarity key for ranking by cosine similarity against query
embedding `q`.  For a nonzero vector `e`, `simKey q e = ssq (dotL e q) / dotL e e`
is a strictly monotone image of the cosine `dotL e q / (‖e‖ * ‖q‖)` (the
common positive factor `‖q‖` cancels and `ssq` removes the square root), so
comparing keys is exactly comparing cosines.  A zero-norm vector gets key 0
(ℚ division by zero is 0), the degenerate cosine. -/
def simKey (q e : List ℚ) : ℚ :=
  ssq (dotL e q) / dotL e e

/-- Modelled from the spec (§4.3): the ranking order of `retrieve_similar` —
descending cosine similarity to the query, ties broken by most-recent
`created_at` first.  `ranksBefore q a b` says `a` is ranked at or before `b`. -/
def ranksBefore (q : List ℚ) (a b : MemoryRecord) : Prop :=
  simKey q b.situation_embedding < simKey q a.situation_embedding ∨
    (simKey q b.situation_embedding = simKey q a.situation_embedding ∧
      b.created_at ≤ a.created_at)

instance (q : List ℚ) : DecidableRel (ranksBefore q) := fun a b =>
  inferInstanceAs (Decidable
    (simKey q b.situation_embedding < simKey q a.situation_embedding ∨
      (simKey q b.situation_embedding = simKey q a.situation_embedding ∧
        b.created_at ≤ a.created_at)))

instance (q : List ℚ) : IsTotal MemoryRecord (ranksBefore q) := by
  constructor
  intro a b
  rcases lt_trichotomy (simKey q a.situation_embedding) (simKey q b.situation_embedding) with h | h | h
  · exact Or.inr (Or.inl h)
  · rcases Nat.le_total a.created_at b.created_at with hc | hc
    · exact Or.inr (Or.inr ⟨h, hc⟩)
    · exact Or.inl (Or.inr ⟨h.symm, hc⟩)
  · exact Or.inl (Or.inl h)

instance (q : List ℚ) : IsTrans MemoryRecord (ranksBefore q) := by
  constructor
  intro a b c hab hbc
  rcases hab with h1 | ⟨h1, hc1⟩ <;> rcases hbc with h2 | ⟨h2, hc2⟩
  · exact Or.inl (h2.trans h1)
  · exact Or.inl (h2 ▸ h1)
  · exact Or.inl (h1 ▸ h2)
  · exact Or.inr ⟨h2.trans h1, hc2.trans hc1⟩

/-- Modelled from the spec (§4.3 `retrieve_similar`, not present in src/):
embeds the situation text via the configured embedding capability `emb`,
refuses (signalling `EmbeddingSpaceMismatch`) if any stored record was
produced by a different embedding space than the store's configured one, and
otherwise ranks all stored records by descending cosine similarity (ties by
most-recent `created_at`) and returns the top `k`.  Deterministic: a pure
function of the store, text, and embedding function. -/
def retrieve_similar (emb : String → List ℚ) (s : MemoryStore)
    (situation_text : String) (k : Nat) : Except MemError (List MemoryRecord) :=
  if s.records.all (fun r => r.embedding_space == s.embedding_space) then
    .ok ((List.insertionSort (ranksBefore (emb situation_text)) s.records).take k)
  else
    .error .embeddingSpaceMismatch

/-- The record freshly created by `record_decision`: embedded situation,
`outcome_return = None`, stamped with the store's clock (`next_id`). -/
def newRecord (emb : String → List ℚ) (s : MemoryStore)
    (situation_text : String) (d : Decision) : MemoryRecord :=
  { id := s.next_id
    situation_embedding := emb situation_text
    situation_text := situation_text
    decision := d
    outcome_return := none
    created_at := s.next_id
    embedding_space := s.embedding_space }

/-- Modelled from the spec (§4.3 `record_decision`, not present in src/):
embeds and appends a new record with `outcome_return = None`; additive and
append-only, existing records are never mutated.  Returns the new store and
the fresh record's id. -/
def record_decision (emb : String → List ℚ) (s : MemoryStore)
    (situation_text : String) (d : Decision) : MemoryStore × Nat :=
  ({ records := s.records ++ [newRecord emb s situation_text d]
     next_id := s.next_id + 1
     embedding_space := s.embedding_space }, s.next_id)

/-- Sets the outcome of the record with the given id, leaving every other
record untouched. -/
def setOutcome (rid : Nat) (ret : ℚ) (x : MemoryRecord) : MemoryRecord :=
  if x.id == rid then { x with outcome_return := some ret } else x

/-- Modelled from the spec (§4.3 reflection, not present in src/): the
record-granular check-and-set at the heart of `reflect_and_remember` — locate
the record by id, signal `NoMatchingRecordError` if absent,
`AlreadyReflectedError` if its `outcome_return` is already set (never
silently overwrite), and otherwise set `outcome_return` exactly once. -/
def reflect_record (s : MemoryStore) (rid : Nat) (ret : ℚ) :
    Except MemError MemoryStore :=
  match s.records.find? (fun r => r.id == rid) with
  | none => .error .noMatchingRecordError
  | some r =>
    if r.outcome_return.isSome then
      .error .alreadyReflectedError
    else
      .ok { records := s.records.map (setOutcome rid ret)
            next_id := s.next_id
            embedding_space := s.embedding_space }

/-- The most-recently created record still lacking an outcome, if any. -/
def latestUnresolved (s : MemoryStore) : Option MemoryRecord :=
  s.records.foldl
    (fun acc r =>
      if r.outcome_return = none then
        match acc with
        | none => some r
        | some b => if b.created_at < r.created_at then some r else some b
      else acc)
    none

/-- Modelled from the spec (§4.3 `reflect_and_remember`, not present in src/):
locates the most-recently created unresolved record and resolves it via
`reflect_record`; `NoMatchingRecordError` when no unresolved record exists. -/
def reflect_and_remember (s : MemoryStore) (ret : ℚ) :
    Except MemError MemoryStore :=
  match latestUnresolved s with
  | none => .error .noMatchingRecordError
  | some r => reflect_record s r.id ret

/-- Modelled from the spec (§6, §7): failure of the external invocation
capability, carrying its cause. -/
structure InvocationError where
  cause : String
deriving DecidableEq

/-- Modelled from the spec (§4.1, Glossary): the model-capability class
routed per stage via configuration. -/
inductive Tier where
  | quick
  | deep
deriving DecidableEq

/-- Modelled from the spec (§6): the collaborator interface
`invoke(role, tier, context, tools_enabled) -> text`, failing with
`InvocationError`.  The core never sees how it is fulfilled. -/
def Invoker : Type :=
  String → Tier → String → Bool → Except InvocationError String

/-- Modelled from the spec (§3 DebateConfig): `{max_rounds, roles}`. -/
structure DebateConfig where
  max_rounds : Nat
  roles : List String
deriving DecidableEq

/-- Modelled from the spec (§7): `DebateFailure{round, role, cause}`. -/
structure DebateFailure where
  round : Nat
  role : String
  cause : InvocationError
deriving DecidableEq

/-- Renders one transcript entry `(round_index, role, text)`. -/
def renderEntry (e : Nat × String × String) : String :=
  e.2.1 ++ ": " ++ e.2.2 ++ "\n"

/-- Renders a full transcript. -/
def renderTranscript (t : List (Nat × String × String)) : String :=
  String.join (t.map renderEntry)

/-- The context a debating role sees: the shared context plus the full
transcript so far (its own and all other roles' prior turns, spec §4.2). -/
def turnContext (shared : String) (t : List (Nat × String × String)) : String :=
  shared ++ "\n" ++ renderTranscript t

/-- Modelled from the spec (§4.2): one debate round — every configured role
invoked exactly once, in fixed role order, each seeing the transcript so far;
an invocation failure aborts with the round, role and cause. -/
def runRound (invoke : String → String → Except InvocationError String)
    (shared : String) (i : Nat) :
    List String → List (Nat × String × String) →
      Except DebateFailure (List (Nat × String × String))
  | [], t => .ok t
  | ρ :: rest, t =>
    match invoke ρ (turnContext shared t) with
    | .error e => .error ⟨i, ρ, e⟩
    | .ok txt => runRound invoke shared i rest (t ++ [(i, ρ, txt)])

/-- Modelled from the spec (§4.2): the bounded round loop, one `runRound`
per round index; the round list is the sole termination control. -/
def runRounds (invoke : String → String → Except InvocationError String)
    (shared : String) (roles : List String) :
    List Nat → List (Nat × String × String) →
      Except DebateFailure (List (Nat × String × String))
  | [], t => .ok t
  | i :: rest, t =>
    match runRound invoke shared i roles t with
    | .error e => .error e
    | .ok t2 => runRounds invoke shared roles rest t2

/-- The distinguished synthesis role (not one of the debating roles). -/
def synthesisRole : String := "synthesis"

/-- Modelled from the spec (§4.2 `run_debate`, not present in src/): rounds
`1` to `max_rounds` (hard cap, no early exit), then a distinguished synthesis
invocation reads the full transcript and emits the resolution text. -/
def run_debate (cfg : DebateConfig)
    (invoke : String → String → Except InvocationError String)
    (shared : String) :
    Except DebateFailure (List (Nat × String × String) × String) :=
  match runRounds invoke shared cfg.roles (List.range' 1 cfg.max_rounds) [] with
  | .error e => .error e
  | .ok t =>
    match invoke synthesisRole (turnContext shared t) with
    | .error e => .error ⟨0, synthesisRole, e⟩
    | .ok res => .ok (t, res)

/-- Modelled from the spec (§6 configuration): the recognized options the
core consumes.  Model tier routing and provider identifiers do not influence
the orchestration shape, so only the keys the claims touch are carried. -/
structure Config where
  max_debate_rounds : Nat
  embedding_model : String
  online_tools : Bool
  debug : Bool
deriving DecidableEq

/-- Modelled from the spec (§4.1): a stage descriptor — `StageName`,
`RoleName`, model tier and whether external tools may be used. -/
structure Stage where
  name : String
  role : String
  tier : Tier
  tools : Bool
deriving DecidableEq

/-- The first analyst stage. -/
def marketAnalystStage : Stage := ⟨"market_analyst", "market_analyst", .quick, true⟩

/-- The second analyst stage. -/
def socialAnalystStage : Stage := ⟨"social_analyst", "social_analyst", .quick, true⟩

/-- The third analyst stage. -/
def newsAnalystStage : Stage := ⟨"news_analyst", "news_analyst", .quick, true⟩

/-- The fourth analyst stage. -/
def fundamentalsAnalystStage : Stage :=
  ⟨"fundamentals_analyst", "fundamentals_analyst", .quick, true⟩

/-- Modelled from the spec (§2, §4.1): the fixed, statically ordered analyst
stages (the third analyst is the news analyst). -/
def analystStages : List Stage :=
  [marketAnalystStage, socialAnalystStage, newsAnalystStage,
   fundamentalsAnalystStage]

/-- Modelled from the spec (§2): the decision-synthesis stage after the
researcher debate. -/
def traderStage : Stage := ⟨"trader", "trader", .deep, false⟩

/-- Modelled from the spec (§4.1): the final aggregation stage, the only
writer of `RunState.decision`. -/
def aggregationStage : Stage :=
  ⟨"portfolio_manager", "portfolio_manager", .deep, false⟩

/-- Modelled from the spec (§4.1): roles of the bull-versus-bear researcher
debate, in configured order. -/
def debateRoles : List String := ["bull", "bear"]

/-- Modelled from the spec (§4.1): roles of the risk-adjustment debate. -/
def riskRoles : List String := ["aggressive", "conservative", "neutral"]

/-- Modelled from the spec (§7): run-level error taxonomy surfaced by the
orchestrator: `StageFailure{stage_name, cause}`,
`DebateFailure{round, role, cause}` and wrapped memory errors. -/
inductive RunError where
  | stageFailure (stage_name : String) (cause : InvocationError)
  | debateFailure (round : Nat) (role : String) (cause : InvocationError)
  | memoryFailure (cause : MemError)
deriving DecidableEq

/-- Modelled from the spec (§3 RunState): the mutable state threaded through
the pipeline.  The `date` input is carried as the string the entrypoint
passes (src/main.py calls `ta.propagate("NVDA", "2024-05-10")` with a plain
ISO-8601 string, so the call boundary does not enforce a date object). -/
structure RunState where
  symbol : String
  date : String
  stage_outputs : List (String × String)
  debate_transcript : List (Nat × String × String)
  risk_transcript : List (Nat × String × String)
  decision : Option Decision
deriving DecidableEq

/-- Modelled from the spec (§2, §4.1): one element of the pipeline order —
an ordinary stage, one of the two embedded debate sub-phases, or the final
aggregation. -/
inductive Step where
  | stage (sg : Stage)
  | debatePhase
  | riskPhase
  | aggregate
deriving DecidableEq

/-- The pipeline order before final aggregation: analyst stages, researcher
debate, decision-synthesis stage, risk-adjustment debate. -/
def frontSteps : List Step :=
  analystStages.map Step.stage ++
    [Step.debatePhase, Step.stage traderStage, Step.riskPhase]

/-- Modelled from the spec (§2 data flow): the full statically ordered
pipeline, ending in the final aggregation stage. -/
def pipelinePlan : List Step := frontSteps ++ [Step.aggregate]

/-- Renders the accumulated stage outputs for downstream contexts. -/
def renderOutputs (l : List (String × String)) : String :=
  String.join (l.map (fun p => p.1 ++ ": " ++ p.2 ++ "\n"))

/-- The context handed to a stage: retrieved memory context (advisory,
spec §4.3), the immutable run inputs, and all prior stage outputs. -/
def stageContext (memCtx : String) (st : RunState) : String :=
  memCtx ++ "\n" ++ st.symbol ++ " " ++ st.date ++ "\n" ++
    renderOutputs st.stage_outputs

/-- Modelled from the spec (§8): the decision label is derived
deterministically from the aggregation text. -/
def parseAction (t : String) : Action :=
  if (t.splitOn "BUY").length > 1 then .BUY
  else if (t.splitOn "SELL").length > 1 then .SELL
  else .HOLD

/-- Builds the immutable `Decision` value from the aggregation text. -/
def mkDecision (t : String) : Decision := ⟨parseAction t, t, none⟩

/-- The role-and-context invoker the Debate Controller uses, routed to the
deep tier without tools. -/
def debateInvoker (invoke : Invoker) :
    String → String → Except InvocationError String :=
  fun role c => invoke role Tier.deep c false

/-- Modelled from the spec (§4.1): executing one pipeline step against the
run state.  A stage invokes its role and appends its text under its own
name; a debate sub-phase appends its transcript and records its resolution
as a synthetic stage output; the final aggregation synthesizes all prior
outputs plus both transcripts into the `Decision` — the only writer of
`decision`.  Any invocation failure aborts with `StageFailure` or
`DebateFailure`. -/
def applyStep (invoke : Invoker) (cfg : Config) (memCtx : String)
    (st : RunState) : Step → Except RunError RunState
  | .stage sg =>
    match invoke sg.role sg.tier (stageContext memCtx st) sg.tools with
    | .error e => .error (.stageFailure sg.name e)
    | .ok txt =>
      .ok { st with stage_outputs := st.stage_outputs ++ [(sg.name, txt)] }
  | .debatePhase =>
    match run_debate ⟨cfg.max_debate_rounds, debateRoles⟩
        (debateInvoker invoke) (stageContext memCtx st) with
    | .error e => .error (.debateFailure e.round e.role e.cause)
    | .ok pr =>
      .ok { st with
        debate_transcript := st.debate_transcript ++ pr.1
        stage_outputs := st.stage_outputs ++ [("debate_resolution", pr.2)] }
  | .riskPhase =>
    match run_debate ⟨cfg.max_debate_rounds, riskRoles⟩
        (debateInvoker invoke) (stageContext memCtx st) with
    | .error e => .error (.debateFailure e.round e.role e.cause)
    | .ok pr =>
      .ok { st with
        risk_transcript := st.risk_transcript ++ pr.1
        stage_outputs := st.stage_outputs ++ [("risk_resolution", pr.2)] }
  | .aggregate =>
    match invoke aggregationStage.role aggregationStage.tier
        (stageContext memCtx st ++ renderTranscript st.debate_transcript ++
          renderTranscript st.risk_transcript) aggregationStage.tools with
    | .error e => .error (.stageFailure aggregationStage.name e)
    | .ok txt =>
      .ok { st with
        stage_outputs := st.stage_outputs ++ [(aggregationStage.name, txt)]
        decision := some (mkDecision txt) }

/-- Executes the pipeline steps strictly sequentially, aborting on the first
failure (stages are never individually retried, spec §4.1). -/
def runSteps (invoke : Invoker) (cfg : Config) (memCtx : String) :
    RunState → List Step → Except RunError RunState
  | st, [] => .ok st
  | st, sp :: rest =>
    match applyStep invoke cfg memCtx st sp with
    | .error e => .error e
    | .ok st2 => runSteps invoke cfg memCtx st2 rest

/-- A fresh `RunState` per call (spec §4.1: no state leaks between runs). -/
def initState (symbol date : String) : RunState :=
  ⟨symbol, date, [], [], [], none⟩

/-- The situation text of a run, used for memory retrieval and recording. -/
def situationOf (symbol date : String) : String := symbol ++ " " ++ date

/-- Renders retrieved records into the advisory shared context (spec §4.3:
advisory, not binding; empty retrieval yields an empty context). -/
def memoryContext (l : List MemoryRecord) : String :=
  String.join (l.map (fun r => r.situation_text ++ " => " ++
    r.decision.rationale ++ "\n"))

/-- Number of similar past situations retrieved per run. -/
def retrieveK : Nat := 2

/-- Modelled from the spec (§6 `propagate`, not present in src/): the public
operation.  Retrieves advisory memory context, creates a fresh `RunState`,
runs the statically ordered pipeline, and on success records the decision in
the Memory Store and returns `(RunState, Decision)` together with the
updated store; an incomplete run is an error, never a value, and on any
failure the store is returned untouched. -/
def propagate (cfg : Config) (invoke : Invoker) (emb : String → List ℚ)
    (mem : MemoryStore) (symbol date : String) :
    Except RunError (RunState × Decision) × MemoryStore :=
  match retrieve_similar emb mem (situationOf symbol date) retrieveK with
  | .error e => (.error (.memoryFailure e), mem)
  | .ok recs =>
    match runSteps invoke cfg (memoryContext recs) (initState symbol date)
        pipelinePlan with
    | .error e => (.error e, mem)
    | .ok st =>
      match st.decision with
      | none =>
        (.error (.stageFailure aggregationStage.name ⟨"incomplete run"⟩), mem)
      | some d =>
        (.ok (st, d), (record_decision emb mem (situationOf symbol date) d).1)

/-- The invoker roles a pipeline step calls into: a stage calls its own
role, a debate sub-phase calls its debating roles plus the distinguished
synthesis role, and the final aggregation calls the aggregation role. -/
def stepRoles : Step → List String
  | .stage sg => [sg.role]
  | .debatePhase => debateRoles ++ [synthesisRole]
  | .riskPhase => riskRoles ++ [synthesisRole]
  | .aggregate => [aggregationStage.role]

/-- The `(stage_name, role)` of a step that is a pipeline stage in the
spec's sense (an ordinary stage or the final aggregation stage); `none` for
the two debate sub-phases, whose failures are `DebateFailure`s. -/
def stageView : Step → Option (String × String)
  | .stage sg => some (sg.name, sg.role)
  | .aggregate => some (aggregationStage.name, aggregationStage.role)
  | .debatePhase => none
  | .riskPhase => none

/-- The single stage-output name contributed by each pipeline step. -/
def stepNames : Step → List String
  | .stage sg => [sg.name]
  | .debatePhase => ["debate_resolution"]
  | .riskPhase => ["risk_resolution"]
  | .aggregate => [aggregationStage.name]

/-- The stage-output names a completed run accumulates, in pipeline order. -/
def planNames : List String := (pipelinePlan.map stepNames).flatten

/-- Stub invoker used in concrete witnesses: always succeeds with a fixed
text. -/
def stubOkInvoke : Invoker := fun _ _ _ _ => .ok "the consensus is HOLD"

/-- Stub invoker used in concrete witnesses: fails on the news analyst role
(the third analyst stage) and succeeds elsewhere. -/
def stubNewsFailInvoke : Invoker := fun role _ _ _ =>
  if role = "news_analyst" then .error ⟨"injected"⟩ else .ok "fine"

/-- Stub invoker used in concrete witnesses: always fails. -/
def stubFailInvoke : Invoker := fun _ _ _ _ => .error ⟨"down"⟩

/-- Stub invoker used in concrete witnesses: fails on the trader role (the
decision-synthesis stage, after the debate sub-phase) and succeeds
elsewhere. -/
def stubTraderFailInvoke : Invoker := fun role _ _ _ =>
  if role = "trader" then .error ⟨"boom"⟩ else .ok "fine"

/-- Concrete configuration mirroring the entrypoint's custom config
(src/main.py sets `max_debate_rounds = 1`, a Google embedding model and
`online_tools = True`). -/
def demoConfig : Config := ⟨1, "text-embedding-004", true, true⟩

/-- A cold-start store: no records at all, in the given embedding space. -/
def emptyStore (space : String) : MemoryStore := ⟨[], 0, space⟩

/-- Stub embedding capability used in concrete witnesses: every text maps to
the one-dimensional unit vector. -/
def embStub : String → List ℚ := fun _ => [1]

/-- Concrete decision used in witnesses. -/
def decisionStub : Decision := ⟨Action.HOLD, "hold", none⟩

/-- Concrete unresolved record used in witnesses. -/
def recStub : MemoryRecord := ⟨0, [1], "s0", decisionStub, none, 0, "m"⟩

/-- Concrete one-record store used in witnesses. -/
def storeStub : MemoryStore := ⟨[recStub], 1, "m"⟩

/-- Concrete empty store used in witnesses. -/
def storeEmptyStub : MemoryStore := ⟨[], 0, "m"⟩

/-- `recStub` after its outcome has been reflected with return 1. -/
def reflectedRecStub : MemoryRecord := ⟨0, [1], "s0", decisionStub, some 1, 0, "m"⟩

/-- `storeStub` after its single record has been reflected. -/
def reflectedStoreStub : MemoryStore := ⟨[reflectedRecStub], 1, "m"⟩

/-- Concrete debate configuration used in witnesses: one round, bull versus
bear. -/
def debateCfgStub : DebateConfig := ⟨1, ["bull", "bear"]⟩

/-- Stub role-and-context invoker used in debate witnesses. -/
def stubDebateInvoke : String → String → Except InvocationError String :=
  fun _ _ => .ok "x"

/-- The transcript `run_debate` produces for `debateCfgStub` under
`stubDebateInvoke`. -/
def stubTranscript : List (Nat × String × String) :=
  [(1, "bull", "x"), (1, "bear", "x")]

/-- The result of the entrypoint's run (`propagate("NVDA", "2024-05-10")`,
src/main.py) executed against the stub collaborators. -/
def demoRun : Except RunError (RunState × Decision) :=
  (propagate demoConfig stubOkInvoke embStub (emptyStore "m")
    "NVDA" "2024-05-10").1

/-- The final `RunState` of `demoRun`. -/
def demoState : RunState :=
  match demoRun with
  | .ok p => p.1
  | .error _ => initState "" ""

/-- The `Decision` of `demoRun`. -/
def demoDecision : Decision :=
  match demoRun with
  | .ok p => p.2
  | .error _ => decisionStub

/-- The state after applying the first analyst stage to a fresh state under
the stub invoker. -/
def demoStep1 : RunState :=
  match applyStep stubOkInvoke demoConfig "mem" (initState "NVDA" "2024-05-10")
      (Step.stage marketAnalystStage) with
  | .ok s => s
  | .error _ => initState "" ""

/-! Dot-product lemmas and an exact (square-root-free) Cauchy–Schwarz
inequality over ℚ, used to show that self-similarity is maximal under the
cosine ranking. -/

theorem dotL_nil_left (b : List ℚ) : dotL [] b = 0 := rfl

theorem dotL_nil_right (a : List ℚ) : dotL a [] = 0 := by
  cases a <;> rfl

theorem dotL_cons_cons (x y : ℚ) (xs ys : List ℚ) :
    dotL (x :: xs) (y :: ys) = x * y + dotL xs ys := by
  simp [dotL]

theorem dotL_self_nonneg (v : List ℚ) : 0 ≤ dotL v v := by
  induction v with
  | nil => simp [dotL]
  | cons x xs ih =>
    rw [dotL_cons_cons]
    nlinarith [mul_self_nonneg x]

theorem dotL_sq_le (a b : List ℚ) : (dotL a b) ^ 2 ≤ dotL a a * dotL b b := by
  induction a generalizing b with
  | nil => simp [dotL_nil_left]
  | cons x xs ih =>
    cases b with
    | nil =>
      simp [dotL_nil_right]
    | cons y ys =>
      have h := ih ys
      have hA := dotL_self_nonneg xs
      have hB := dotL_self_nonneg ys
      rw [dotL_cons_cons, dotL_cons_cons, dotL_cons_cons]
      rcases eq_or_lt_of_le hB with hB0 | hB0
      · have hd : dotL xs ys = 0 := by nlinarith [sq_nonneg (dotL xs ys)]
        rw [hd, ← hB0]
        nlinarith [mul_self_nonneg x, mul_self_nonneg y, mul_nonneg hA (mul_self_nonneg y)]
      · have hslack : (0:ℚ) ≤ dotL xs xs * dotL ys ys - (dotL xs ys) ^ 2 := by
          nlinarith [h]
        have hyB : (0:ℚ) ≤ y * y + dotL ys ys := by
          nlinarith [mul_self_nonneg y]
        nlinarith [sq_nonneg (x * dotL ys ys - y * dotL xs ys),
          mul_nonneg hslack hyB, hB0]

theorem simKey_self (e : List ℚ) (he : 0 < dotL e e) : simKey e e = dotL e e := by
  unfold simKey ssq
  rw [abs_of_pos he]
  exact mul_div_cancel_right₀ (dotL e e) he.ne'

theorem simKey_le (e v : List ℚ) (he : 0 < dotL e e) :
    simKey e v ≤ dotL e e := by
  unfold simKey ssq
  rcases eq_or_lt_of_le (dotL_self_nonneg v) with h0 | h0
  · rw [← h0, div_zero]
    exact he.le
  · rw [div_le_iff₀ h0]
    have h1 := mul_le_mul_of_nonneg_right (le_abs_self (dotL v e))
      (abs_nonneg (dotL v e))
    rw [abs_mul_abs_self] at h1
    have h2 : (dotL v e) ^ 2 ≤ dotL v v * dotL e e := dotL_sq_le v e
    nlinarith [h1, h2]

/-- The head of an insertion sort is the dominant element, when one element
strictly dominates every other element of the list. -/
theorem insertionSort_head_dominant {α : Type} (rel : α → α → Prop)
    [DecidableRel rel] [IsTotal α rel] [IsTrans α rel] (l : List α) (x : α)
    (hx : x ∈ l) (hdom : ∀ y ∈ l, y ≠ x → ¬ rel y x) :
    (List.insertionSort rel l).head? = some x := by
  have hperm := List.perm_insertionSort rel l
  have hsorted := List.sorted_insertionSort rel l
  have hx' : x ∈ List.insertionSort rel l := hperm.mem_iff.mpr hx
  cases hs : List.insertionSort rel l with
  | nil =>
    rw [hs] at hx'
    cases hx'
  | cons h t =>
    rw [hs] at hx' hsorted hperm
    have hh : h ∈ l := hperm.mem_iff.mp (List.mem_cons_self h t)
    rcases List.mem_cons.mp hx' with hxh | hxt
    · rw [hxh]
      rfl
    · by_cases hhx : h = x
      · rw [hhx]
        rfl
      · exact absurd (List.rel_of_sorted_cons hsorted x hxt) (hdom h hh hhx)

theorem head_take {α : Type} (k : Nat) (l : List α) (hk : 1 ≤ k) :
    (l.take k).head? = l.head? := by
  cases k with
  | zero => omega
  | succ n => cases l <;> simp

/-- `find?` by id commutes with `setOutcome`, which preserves ids. -/
theorem find_map_setOutcome (rid : Nat) (ret : ℚ) (l : List MemoryRecord) :
    List.find? (fun r => r.id == rid) (l.map (setOutcome rid ret)) =
      (List.find? (fun r => r.id == rid) l).map (setOutcome rid ret) := by
  induction l with
  | nil => rfl
  | cons a l ih =>
    have hid : (setOutcome rid ret a).id = a.id := by
      unfold setOutcome
      split <;> rfl
    by_cases h : (a.id == rid) = true
    · rw [List.map_cons,
        List.find?_cons_of_pos (p := fun r : MemoryRecord => r.id == rid) _
          (by simpa [hid] using h),
        List.find?_cons_of_pos (p := fun r : MemoryRecord => r.id == rid) _ h,
        Option.map_some']
    · rw [List.map_cons,
        List.find?_cons_of_neg (p := fun r : MemoryRecord => r.id == rid) _
          (by simpa [hid] using h),
        List.find?_cons_of_neg (p := fun r : MemoryRecord => r.id == rid) _ h,
        ih]

/-- C4: `retrieve_similar` returns at most `k` records (exactly
`min k |store|`), ordered by descending cosine similarity with ties broken by
most-recent `created_at` first (the order `ranksBefore`), and every returned
record lives in the store's (hence the query's) embedding space.  Being a
pure function of the store, the text and the embedding function, it is
deterministic by construction. -/
theorem retrieve_similar_spec (emb : String → List ℚ) (s : MemoryStore)
    (q : String) (k : Nat) (l : List MemoryRecord)
    (h : retrieve_similar emb s q k = .ok l) :
    l.length = min k s.records.length ∧
    List.Sorted (ranksBefore (emb q)) l ∧
    ∀ r ∈ l, r.embedding_space = s.embedding_space := by
  unfold retrieve_similar at h
  split at h
  case isTrue hall =>
    cases h
    refine ⟨?_, ?_, ?_⟩
    · rw [List.length_take, (List.perm_insertionSort _ _).length_eq]
    · exact List.Pairwise.sublist (List.take_sublist _ _)
        (List.sorted_insertionSort _ _)
    · intro r hr
      have hr' : r ∈ s.records :=
        (List.perm_insertionSort _ _).mem_iff.mp (List.mem_of_mem_take hr)
      have := List.all_eq_true.mp hall r hr'
      exact beq_iff_eq.mp this
  case isFalse _ =>
    cases h

/-- Witness for C4 at a concrete one-record store with `k = 1`. -/
theorem retrieve_similar_spec_witness :
    [recStub].length = min 1 storeStub.records.length ∧
    List.Sorted (ranksBefore (embStub "q")) [recStub] ∧
    ∀ r ∈ [recStub], r.embedding_space = storeStub.embedding_space :=
  retrieve_similar_spec embStub storeStub "q" 1 [recStub] rfl

/-- C5: once a record's `outcome_return` is set by a successful reflection,
reflecting the same record again signals `AlreadyReflectedError`, and the
stored `outcome_return` keeps its first value (never silently overwritten). -/
theorem reflect_record_twice (s : MemoryStore) (rid : Nat) (v1 v2 : ℚ)
    (s1 : MemoryStore) (h : reflect_record s rid v1 = .ok s1) :
    reflect_record s1 rid v2 = .error .alreadyReflectedError ∧
    (s1.records.find? (fun r => r.id == rid)).map
      (fun r => r.outcome_return) = some (some v1) := by
  unfold reflect_record at h
  split at h
  · exact absurd h (by simp)
  rename_i r hf
  split at h
  · exact absurd h (by simp)
  rename_i ho
  cases h
  have hid' := List.find?_some hf
  have hid : (r.id == rid) = true := hid'
  have hfind : (s.records.map (setOutcome rid v1)).find?
      (fun r => r.id == rid) = some (setOutcome rid v1 r) := by
    rw [find_map_setOutcome, hf, Option.map_some']
  have hset : setOutcome rid v1 r = { r with outcome_return := some v1 } := by
    unfold setOutcome
    rw [if_pos hid]
  constructor
  · unfold reflect_record
    simp only [hfind, hset]
    rfl
  · simp only [hfind, hset]
    rfl

/-- Witness for C5: a one-record store reflected twice. -/
theorem reflect_record_twice_witness :
    reflect_record (reflectedStoreStub) 0 2 = .error .alreadyReflectedError ∧
    ((reflectedStoreStub).records.find? (fun r => r.id == 0)).map
      (fun r => r.outcome_return) = some (some 1) :=
  reflect_record_twice storeStub 0 1 2 reflectedStoreStub rfl

/-- C6: recording a decision appends a fresh record with
`outcome_return = None` without mutating existing records, and an immediate
`retrieve_similar` with the same situation text ranks the fresh record first:
its cosine similarity to the query is maximal (Cauchy–Schwarz) and the
recency tie-break favours it. -/
theorem record_then_retrieve (emb : String → List ℚ) (s : MemoryStore)
    (text : String) (d : Decision) (k : Nat)
    (hwf : ∀ r ∈ s.records,
      r.created_at < s.next_id ∧ r.embedding_space = s.embedding_space)
    (hk : 1 ≤ k) (hq : 0 < dotL (emb text) (emb text)) :
    (record_decision emb s text d).1.records =
      s.records ++ [newRecord emb s text d] ∧
    (newRecord emb s text d).outcome_return = none ∧
    ∃ l, retrieve_similar emb (record_decision emb s text d).1 text k = .ok l ∧
      l.head? = some (newRecord emb s text d) := by
  refine ⟨rfl, rfl, ?_⟩
  have hall : ((record_decision emb s text d).1.records).all
      (fun r => r.embedding_space ==
        (record_decision emb s text d).1.embedding_space) = true := by
    apply List.all_eq_true.mpr
    intro r hr
    rcases List.mem_append.mp hr with hmem | hmem
    · exact beq_iff_eq.mpr ((hwf r hmem).2)
    · rcases List.mem_singleton.mp hmem with rfl
      exact beq_iff_eq.mpr rfl
  refine ⟨(List.insertionSort (ranksBefore (emb text))
      ((record_decision emb s text d).1.records)).take k, ?_, ?_⟩
  · unfold retrieve_similar
    rw [if_pos hall]
  · rw [head_take _ _ hk]
    apply insertionSort_head_dominant
    · exact List.mem_append.mpr (Or.inr (List.mem_singleton.mpr rfl))
    · intro y hy hne
      have hy' : y ∈ s.records := by
        rcases List.mem_append.mp hy with hmem | hmem
        · exact hmem
        · exact absurd (List.mem_singleton.mp hmem) hne
      have hkey : simKey (emb text)
          (newRecord emb s text d).situation_embedding = dotL (emb text) (emb text) :=
        simKey_self (emb text) hq
      have hle : simKey (emb text) y.situation_embedding ≤
          dotL (emb text) (emb text) := simKey_le (emb text) y.situation_embedding hq
      have hc : y.created_at < (newRecord emb s text d).created_at :=
        (hwf y hy').1
      intro hcontra
      rcases hcontra with hlt | ⟨_, hle'⟩
      · rw [hkey] at hlt
        exact absurd hlt (not_lt.mpr hle)
      · exact absurd hle' (not_le.mpr hc)

/-- Witness for C6 at the empty store. -/
theorem record_then_retrieve_witness :
    (record_decision embStub storeEmptyStub "q" decisionStub).1.records =
      storeEmptyStub.records ++ [newRecord embStub storeEmptyStub "q" decisionStub] ∧
    (newRecord embStub storeEmptyStub "q" decisionStub).outcome_return = none ∧
    ∃ l, retrieve_similar embStub
        (record_decision embStub storeEmptyStub "q" decisionStub).1 "q" 1 = .ok l ∧
      l.head? = some (newRecord embStub storeEmptyStub "q" decisionStub) :=
  record_then_retrieve embStub storeEmptyStub "q" decisionStub 1
    (by intro r hr; cases hr) (by decide) (by norm_num [dotL, embStub])

/-! Debate controller lemmas: the `(round, role)` projection of every
completed transcript is fully determined by the round plan and role order. -/

theorem sum_map_const {α : Type} (l : List α) (c : Nat) :
    (l.map (fun _ => c)).sum = l.length * c := by
  induction l with
  | nil => simp
  | cons a l ih => simp [ih, Nat.succ_mul, Nat.add_comm]

theorem runRound_ok_shape (invoke : String → String → Except InvocationError String)
    (shared : String) (i : Nat) :
    ∀ (roles : List String) (t t' : List (Nat × String × String)),
      runRound invoke shared i roles t = .ok t' →
      t'.map (fun e => (e.1, e.2.1)) =
        t.map (fun e => (e.1, e.2.1)) ++ roles.map (fun ρ => (i, ρ)) := by
  intro roles
  induction roles with
  | nil =>
    intro t t' h
    cases h
    simp
  | cons ρ rest ih =>
    intro t t' h
    unfold runRound at h
    cases hi : invoke ρ (turnContext shared t) with
    | error e =>
      rw [hi] at h
      cases h
    | ok txt =>
      rw [hi] at h
      have hrec := ih (t ++ [(i, ρ, txt)]) t' h
      rw [hrec]
      simp

theorem runRounds_ok_shape (invoke : String → String → Except InvocationError String)
    (shared : String) (roles : List String) :
    ∀ (idxs : List Nat) (t t' : List (Nat × String × String)),
      runRounds invoke shared roles idxs t = .ok t' →
      t'.map (fun e => (e.1, e.2.1)) =
        t.map (fun e => (e.1, e.2.1)) ++
          (idxs.map (fun i => roles.map (fun ρ => (i, ρ)))).flatten := by
  intro idxs
  induction idxs with
  | nil =>
    intro t t' h
    cases h
    simp
  | cons i rest ih =>
    intro t t' h
    unfold runRounds at h
    cases hr : runRound invoke shared i roles t with
    | error e =>
      rw [hr] at h
      cases h
    | ok t2 =>
      rw [hr] at h
      have h2 := ih t2 t' h
      have h1 := runRound_ok_shape invoke shared i roles t t2 hr
      rw [h2, h1]
      simp

/-- C1: whenever a debate completes without invocation failure, its
transcript holds exactly `max_rounds × |roles|` entries, and the
`(round, role)` sequence is precisely rounds `1..max_rounds` each listing the
configured roles in order — the loop has no early exit, and `max_rounds = 1`
still yields one full round before synthesis, never zero. -/
theorem run_debate_transcript_shape (cfg : DebateConfig)
    (invoke : String → String → Except InvocationError String)
    (shared : String) (t : List (Nat × String × String)) (res : String)
    (hN : 1 ≤ cfg.max_rounds)
    (h : run_debate cfg invoke shared = .ok (t, res)) :
    t.length = cfg.max_rounds * cfg.roles.length ∧
    t.map (fun e => (e.1, e.2.1)) =
      ((List.range' 1 cfg.max_rounds).map
        (fun i => cfg.roles.map (fun ρ => (i, ρ)))).flatten := by
  unfold run_debate at h
  split at h
  · exact absurd h (by simp)
  rename_i t0 hr
  split at h
  · exact absurd h (by simp)
  rename_i r2 hs
  cases h
  have hshape := runRounds_ok_shape invoke shared cfg.roles
    (List.range' 1 cfg.max_rounds) [] t hr
  simp only [List.map_nil, List.nil_append] at hshape
  refine ⟨?_, hshape⟩
  have hlen := congrArg List.length hshape
  simp only [List.length_map, List.length_flatten, List.map_map] at hlen
  rw [hlen]
  have hcomp : (List.length ∘ fun i => cfg.roles.map fun ρ => (i, ρ)) =
      fun _ : Nat => cfg.roles.length := by
    funext i
    simp
  rw [hcomp, sum_map_const, List.length_range']

/-- Witness for C1: one round of bull versus bear under a stub invoker. -/
theorem run_debate_transcript_shape_witness :
    stubTranscript.length = debateCfgStub.max_rounds * debateCfgStub.roles.length ∧
    stubTranscript.map (fun e => (e.1, e.2.1)) =
      ((List.range' 1 debateCfgStub.max_rounds).map
        (fun i => debateCfgStub.roles.map (fun ρ => (i, ρ)))).flatten :=
  run_debate_transcript_shape debateCfgStub stubDebateInvoke "ctx"
    stubTranscript "x" (by decide) rfl

/-! Pipeline orchestrator lemmas. -/

theorem runSteps_cons_ok (invoke : Invoker) (cfg : Config) (m : String)
    (st : RunState) (sp : Step) (st2 : RunState) (rest : List Step)
    (h : applyStep invoke cfg m st sp = .ok st2) :
    runSteps invoke cfg m st (sp :: rest) = runSteps invoke cfg m st2 rest := by
  simp only [runSteps, h]

theorem runSteps_cons_err (invoke : Invoker) (cfg : Config) (m : String)
    (st : RunState) (sp : Step) (rest : List Step) (e : RunError)
    (h : applyStep invoke cfg m st sp = .error e) :
    runSteps invoke cfg m st (sp :: rest) = .error e := by
  simp only [runSteps, h]

theorem runSteps_append (invoke : Invoker) (cfg : Config) (m : String) :
    ∀ (l1 l2 : List Step) (st : RunState),
      runSteps invoke cfg m st (l1 ++ l2) =
        match runSteps invoke cfg m st l1 with
        | .error e => .error e
        | .ok st2 => runSteps invoke cfg m st2 l2 := by
  intro l1
  induction l1 with
  | nil => intro l2 st; rfl
  | cons sp rest ih =>
    intro l2 st
    rw [List.cons_append]
    cases h : applyStep invoke cfg m st sp with
    | error e =>
      rw [runSteps_cons_err invoke cfg m st sp (rest ++ l2) e h,
        runSteps_cons_err invoke cfg m st sp rest e h]
    | ok st2 =>
      rw [runSteps_cons_ok invoke cfg m st sp st2 (rest ++ l2) h,
        runSteps_cons_ok invoke cfg m st sp st2 rest h]
      exact ih l2 st2

theorem applyStep_stage_ok (invoke : Invoker) (cfg : Config) (m : String)
    (st : RunState) (sg : Stage) (txt : String)
    (h : invoke sg.role sg.tier (stageContext m st) sg.tools = .ok txt) :
    applyStep invoke cfg m st (Step.stage sg) =
      .ok { st with stage_outputs := st.stage_outputs ++ [(sg.name, txt)] } := by
  simp only [applyStep, h]

theorem applyStep_stage_err (invoke : Invoker) (cfg : Config) (m : String)
    (st : RunState) (sg : Stage) (e : InvocationError)
    (h : invoke sg.role sg.tier (stageContext m st) sg.tools = .error e) :
    applyStep invoke cfg m st (Step.stage sg) =
      .error (.stageFailure sg.name e) := by
  simp only [applyStep, h]

theorem runRound_total (dinv : String → String → Except InvocationError String)
    (shared : String) (i : Nat) (hok : ∀ ρ c, ∃ s, dinv ρ c = .ok s) :
    ∀ (roles : List String) (t : List (Nat × String × String)),
      ∃ t', runRound dinv shared i roles t = .ok t' := by
  intro roles
  induction roles with
  | nil => intro t; exact ⟨t, rfl⟩
  | cons ρ rest ih =>
    intro t
    obtain ⟨s, hs⟩ := hok ρ (turnContext shared t)
    obtain ⟨t', ht'⟩ := ih (t ++ [(i, ρ, s)])
    refine ⟨t', ?_⟩
    unfold runRound
    rw [hs]
    exact ht'

theorem runRounds_total (dinv : String → String → Except InvocationError String)
    (shared : String) (roles : List String)
    (hok : ∀ ρ c, ∃ s, dinv ρ c = .ok s) :
    ∀ (idxs : List Nat) (t : List (Nat × String × String)),
      ∃ t', runRounds dinv shared roles idxs t = .ok t' := by
  intro idxs
  induction idxs with
  | nil => intro t; exact ⟨t, rfl⟩
  | cons i rest ih =>
    intro t
    obtain ⟨t2, h2⟩ := runRound_total dinv shared i hok roles t
    obtain ⟨t', ht'⟩ := ih t2
    refine ⟨t', ?_⟩
    unfold runRounds
    rw [h2]
    exact ht'

theorem run_debate_total (cfg : DebateConfig)
    (dinv : String → String → Except InvocationError String) (shared : String)
    (hok : ∀ ρ c, ∃ s, dinv ρ c = .ok s) :
    ∃ t res, run_debate cfg dinv shared = .ok (t, res) := by
  obtain ⟨t, ht⟩ := runRounds_total dinv shared cfg.roles hok
    (List.range' 1 cfg.max_rounds) []
  obtain ⟨res, hres⟩ := hok synthesisRole (turnContext shared t)
  refine ⟨t, res, ?_⟩
  unfold run_debate
  rw [ht]
  simp [hres]

theorem applyStep_total (invoke : Invoker) (cfg : Config) (m : String)
    (hok : ∀ r ti c b, ∃ s, invoke r ti c b = .ok s) :
    ∀ (st : RunState) (sp : Step), ∃ st', applyStep invoke cfg m st sp = .ok st' := by
  intro st sp
  have hdeb : ∀ ρ c, ∃ s, debateInvoker invoke ρ c = .ok s :=
    fun ρ c => hok ρ Tier.deep c false
  cases sp with
  | stage sg =>
    obtain ⟨s, hs⟩ := hok sg.role sg.tier (stageContext m st) sg.tools
    exact ⟨_, applyStep_stage_ok invoke cfg m st sg s hs⟩
  | debatePhase =>
    obtain ⟨t, res, h⟩ := run_debate_total ⟨cfg.max_debate_rounds, debateRoles⟩
      (debateInvoker invoke) (stageContext m st) hdeb
    refine ⟨{ st with
      debate_transcript := st.debate_transcript ++ t
      stage_outputs := st.stage_outputs ++ [("debate_resolution", res)] }, ?_⟩
    simp only [applyStep, h]
  | riskPhase =>
    obtain ⟨t, res, h⟩ := run_debate_total ⟨cfg.max_debate_rounds, riskRoles⟩
      (debateInvoker invoke) (stageContext m st) hdeb
    refine ⟨{ st with
      risk_transcript := st.risk_transcript ++ t
      stage_outputs := st.stage_outputs ++ [("risk_resolution", res)] }, ?_⟩
    simp only [applyStep, h]
  | aggregate =>
    obtain ⟨s, hs⟩ := hok aggregationStage.role aggregationStage.tier
      (stageContext m st ++ renderTranscript st.debate_transcript ++
        renderTranscript st.risk_transcript) aggregationStage.tools
    refine ⟨{ st with
      stage_outputs := st.stage_outputs ++ [(aggregationStage.name, s)]
      decision := some (mkDecision s) }, ?_⟩
    simp only [applyStep, hs]

theorem runSteps_total (invoke : Invoker) (cfg : Config) (m : String)
    (hok : ∀ r ti c b, ∃ s, invoke r ti c b = .ok s) :
    ∀ (plan : List Step) (st : RunState),
      ∃ st', runSteps invoke cfg m st plan = .ok st' := by
  intro plan
  induction plan with
  | nil => intro st; exact ⟨st, rfl⟩
  | cons sp rest ih =>
    intro st
    obtain ⟨st2, h2⟩ := applyStep_total invoke cfg m hok st sp
    obtain ⟨st', h'⟩ := ih st2
    refine ⟨st', ?_⟩
    rw [runSteps_cons_ok invoke cfg m st sp st2 rest h2]
    exact h'

theorem runRound_total_on (dinv : String → String → Except InvocationError String)
    (shared : String) (i : Nat) :
    ∀ (roles : List String), (∀ ρ ∈ roles, ∀ c, ∃ s, dinv ρ c = .ok s) →
      ∀ (t : List (Nat × String × String)),
        ∃ t', runRound dinv shared i roles t = .ok t' := by
  intro roles
  induction roles with
  | nil => intro _ t; exact ⟨t, rfl⟩
  | cons ρ rest ih =>
    intro hok t
    obtain ⟨s, hs⟩ := hok ρ (List.mem_cons_self ρ rest) (turnContext shared t)
    obtain ⟨t', ht'⟩ := ih (fun ρ' hρ' => hok ρ' (List.mem_cons_of_mem ρ hρ'))
      (t ++ [(i, ρ, s)])
    refine ⟨t', ?_⟩
    unfold runRound
    rw [hs]
    exact ht'

theorem runRounds_total_on (dinv : String → String → Except InvocationError String)
    (shared : String) (roles : List String)
    (hok : ∀ ρ ∈ roles, ∀ c, ∃ s, dinv ρ c = .ok s) :
    ∀ (idxs : List Nat) (t : List (Nat × String × String)),
      ∃ t', runRounds dinv shared roles idxs t = .ok t' := by
  intro idxs
  induction idxs with
  | nil => intro t; exact ⟨t, rfl⟩
  | cons i rest ih =>
    intro t
    obtain ⟨t2, h2⟩ := runRound_total_on dinv shared i roles hok t
    obtain ⟨t', ht'⟩ := ih t2
    refine ⟨t', ?_⟩
    unfold runRounds
    rw [h2]
    exact ht'

theorem run_debate_total_on (cfg : DebateConfig)
    (dinv : String → String → Except InvocationError String) (shared : String)
    (hok : ∀ ρ ∈ cfg.roles, ∀ c, ∃ s, dinv ρ c = .ok s)
    (hsynth : ∀ c, ∃ s, dinv synthesisRole c = .ok s) :
    ∃ t res, run_debate cfg dinv shared = .ok (t, res) := by
  obtain ⟨t, ht⟩ := runRounds_total_on dinv shared cfg.roles hok
    (List.range' 1 cfg.max_rounds) []
  obtain ⟨res, hres⟩ := hsynth (turnContext shared t)
  refine ⟨t, res, ?_⟩
  unfold run_debate
  rw [ht]
  simp [hres]

/-- A pipeline step succeeds as soon as the invoker succeeds on every role
that step calls into. -/
theorem applyStep_ok_of_roles (invoke : Invoker) (cfg : Config) (m : String)
    (st : RunState) (sp : Step)
    (hok : ∀ r ∈ stepRoles sp, ∀ ti c b, ∃ s, invoke r ti c b = .ok s) :
    ∃ st', applyStep invoke cfg m st sp = .ok st' := by
  cases sp with
  | stage sg =>
    obtain ⟨s, hs⟩ := hok sg.role (by simp [stepRoles]) sg.tier
      (stageContext m st) sg.tools
    exact ⟨_, applyStep_stage_ok invoke cfg m st sg s hs⟩
  | debatePhase =>
    obtain ⟨t, res, h⟩ := run_debate_total_on ⟨cfg.max_debate_rounds, debateRoles⟩
      (debateInvoker invoke) (stageContext m st)
      (fun ρ hρ c => hok ρ (by simp [stepRoles]; exact Or.inl hρ) Tier.deep c false)
      (fun c => hok synthesisRole (by simp [stepRoles]) Tier.deep c false)
    refine ⟨{ st with
      debate_transcript := st.debate_transcript ++ t
      stage_outputs := st.stage_outputs ++ [("debate_resolution", res)] }, ?_⟩
    simp only [applyStep, h]
  | riskPhase =>
    obtain ⟨t, res, h⟩ := run_debate_total_on ⟨cfg.max_debate_rounds, riskRoles⟩
      (debateInvoker invoke) (stageContext m st)
      (fun ρ hρ c => hok ρ (by simp [stepRoles]; exact Or.inl hρ) Tier.deep c false)
      (fun c => hok synthesisRole (by simp [stepRoles]) Tier.deep c false)
    refine ⟨{ st with
      risk_transcript := st.risk_transcript ++ t
      stage_outputs := st.stage_outputs ++ [("risk_resolution", res)] }, ?_⟩
    simp only [applyStep, h]
  | aggregate =>
    obtain ⟨s, hs⟩ := hok aggregationStage.role (by simp [stepRoles])
      aggregationStage.tier
      (stageContext m st ++ renderTranscript st.debate_transcript ++
        renderTranscript st.risk_transcript) aggregationStage.tools
    refine ⟨{ st with
      stage_outputs := st.stage_outputs ++ [(aggregationStage.name, s)]
      decision := some (mkDecision s) }, ?_⟩
    simp only [applyStep, hs]

theorem runSteps_ok_of_roles (invoke : Invoker) (cfg : Config) (m : String) :
    ∀ (plan : List Step) (st : RunState),
      (∀ sp ∈ plan, ∀ r ∈ stepRoles sp, ∀ ti c b, ∃ s, invoke r ti c b = .ok s) →
      ∃ st', runSteps invoke cfg m st plan = .ok st' := by
  intro plan
  induction plan with
  | nil => intro st _; exact ⟨st, rfl⟩
  | cons sp rest ih =>
    intro st hok
    obtain ⟨st2, h2⟩ := applyStep_ok_of_roles invoke cfg m st sp
      (hok sp (List.mem_cons_self sp rest))
    obtain ⟨st', h'⟩ := ih st2
      (fun x hx => hok x (List.mem_cons_of_mem sp hx))
    refine ⟨st', ?_⟩
    rw [runSteps_cons_ok invoke cfg m st sp st2 rest h2]
    exact h'

theorem applyStep_aggregate_err (invoke : Invoker) (cfg : Config) (m : String)
    (st : RunState) (e : InvocationError)
    (h : invoke aggregationStage.role aggregationStage.tier
      (stageContext m st ++ renderTranscript st.debate_transcript ++
        renderTranscript st.risk_transcript) aggregationStage.tools = .error e) :
    applyStep invoke cfg m st Step.aggregate =
      .error (.stageFailure aggregationStage.name e) := by
  simp only [applyStep, h]

theorem applyStep_aggregate_decision (invoke : Invoker) (cfg : Config)
    (m : String) (st st' : RunState)
    (h : applyStep invoke cfg m st Step.aggregate = .ok st') :
    ∃ d, st'.decision = some d := by
  simp only [applyStep] at h
  split at h
  · exact absurd h (by simp)
  cases h
  exact ⟨_, rfl⟩

/-- The full frame-and-effect characterization of one pipeline step on the
run state. -/
theorem applyStep_effects (invoke : Invoker) (cfg : Config) (m : String)
    (st : RunState) (sp : Step) (st' : RunState)
    (h : applyStep invoke cfg m st sp = .ok st') :
    st.stage_outputs <+: st'.stage_outputs ∧
    st.debate_transcript <+: st'.debate_transcript ∧
    st.risk_transcript <+: st'.risk_transcript ∧
    (sp ≠ Step.aggregate → st'.decision = st.decision) ∧
    (sp = Step.aggregate → ∃ d, st'.decision = some d) ∧
    st'.stage_outputs.map Prod.fst =
      st.stage_outputs.map Prod.fst ++ stepNames sp := by
  cases sp with
  | stage sg =>
    simp only [applyStep] at h
    split at h
    · exact absurd h (by simp)
    cases h
    refine ⟨List.prefix_append _ _, List.prefix_rfl, List.prefix_rfl,
      fun _ => rfl, fun hc => absurd hc (by simp), ?_⟩
    simp [stepNames]
  | debatePhase =>
    simp only [applyStep] at h
    split at h
    · exact absurd h (by simp)
    cases h
    refine ⟨List.prefix_append _ _, List.prefix_append _ _, List.prefix_rfl,
      fun _ => rfl, fun hc => absurd hc (by simp), ?_⟩
    simp [stepNames]
  | riskPhase =>
    simp only [applyStep] at h
    split at h
    · exact absurd h (by simp)
    cases h
    refine ⟨List.prefix_append _ _, List.prefix_rfl, List.prefix_append _ _,
      fun _ => rfl, fun hc => absurd hc (by simp), ?_⟩
    simp [stepNames]
  | aggregate =>
    simp only [applyStep] at h
    split at h
    · exact absurd h (by simp)
    cases h
    refine ⟨List.prefix_append _ _, List.prefix_rfl, List.prefix_rfl,
      fun hc => absurd rfl hc, fun _ => ⟨_, rfl⟩, ?_⟩
    simp [stepNames]

theorem runSteps_names (invoke : Invoker) (cfg : Config) (m : String) :
    ∀ (plan : List Step) (st st' : RunState),
      runSteps invoke cfg m st plan = .ok st' →
      st'.stage_outputs.map Prod.fst =
        st.stage_outputs.map Prod.fst ++ (plan.map stepNames).flatten := by
  intro plan
  induction plan with
  | nil =>
    intro st st' h
    cases h
    simp
  | cons sp rest ih =>
    intro st st' h
    cases h2 : applyStep invoke cfg m st sp with
    | error e =>
      rw [runSteps_cons_err invoke cfg m st sp rest e h2] at h
      cases h
    | ok st2 =>
      rw [runSteps_cons_ok invoke cfg m st sp st2 rest h2] at h
      have hn := (applyStep_effects invoke cfg m st sp st2 h2).2.2.2.2.2
      rw [ih st2 st' h, hn]
      simp

theorem runSteps_pipeline_decision (invoke : Invoker) (cfg : Config)
    (m : String) (st st' : RunState)
    (h : runSteps invoke cfg m st pipelinePlan = .ok st') :
    ∃ d, st'.decision = some d := by
  unfold pipelinePlan at h
  rw [runSteps_append] at h
  split at h
  · exact absurd h (by simp)
  rename_i st2 hfront
  cases h3 : applyStep invoke cfg m st2 Step.aggregate with
  | error e =>
    rw [runSteps_cons_err invoke cfg m st2 Step.aggregate [] e h3] at h
    cases h
  | ok st3 =>
    rw [runSteps_cons_ok invoke cfg m st2 Step.aggregate st3 [] h3] at h
    cases h
    exact applyStep_aggregate_decision invoke cfg m st2 st' h3

/-! Run-level theorems about `propagate`. -/

/-- C2: the run-boundary contract of `propagate` — whenever it returns
normally the returned `RunState` carries the decision (never `None`), and
when the invocation of any pipeline stage fails (at an arbitrary position of
the plan: any analyst, the trader, or the final aggregation stage — the
invoker fails on that stage's role, earlier steps not using that role), the
run aborts with `StageFailure{stage_name, cause}` naming exactly that stage
and the `InvocationError` cause, no decision is set, and the Memory Store is
returned untouched. -/
theorem propagate_contract (cfg : Config) (invoke : Invoker)
    (emb : String → List ℚ) (mem : MemoryStore) (symbol date : String) :
    (∀ st d, (propagate cfg invoke emb mem symbol date).1 = .ok (st, d) →
      st.decision = some d) ∧
    (∀ (sp : Step) (sname srole : String) (e : InvocationError)
      (pre post : List Step),
      pipelinePlan = pre ++ sp :: post →
      stageView sp = some (sname, srole) →
      (∀ x ∈ pre, srole ∉ stepRoles x) →
      (∀ ti c b, invoke srole ti c b = .error e) →
      (∀ r ti c b, r ≠ srole → ∃ s, invoke r ti c b = .ok s) →
      (∀ r ∈ mem.records, r.embedding_space = mem.embedding_space) →
      propagate cfg invoke emb mem symbol date =
        (.error (.stageFailure sname e), mem)) := by
  constructor
  · intro st d h
    unfold propagate at h
    split at h
    · exact absurd h (by simp)
    rename_i recs hrecs
    split at h
    · exact absurd h (by simp)
    rename_i st2 hrun
    split at h
    · exact absurd h (by simp)
    rename_i d2 hdec
    have h' : Except.ok (ε := RunError) (st2, d2) = .ok (st, d) := h
    cases h'
    exact hdec
  · intro sp sname srole e pre post hsplit hview hpre hfail hok hwf
    have hrecs : retrieve_similar emb mem (situationOf symbol date) retrieveK =
        .ok ((List.insertionSort (ranksBefore (emb (situationOf symbol date)))
          mem.records).take retrieveK) := by
      unfold retrieve_similar
      rw [if_pos]
      apply List.all_eq_true.mpr
      intro r hr
      exact beq_iff_eq.mpr (hwf r hr)
    set m := memoryContext ((List.insertionSort
      (ranksBefore (emb (situationOf symbol date))) mem.records).take retrieveK)
      with hm
    have hpreok : ∀ x ∈ pre, ∀ r ∈ stepRoles x, ∀ ti c b,
        ∃ s, invoke r ti c b = .ok s := by
      intro x hx r hr ti c b
      apply hok
      intro hreq
      exact hpre x hx (hreq ▸ hr)
    obtain ⟨st2, hst2⟩ := runSteps_ok_of_roles invoke cfg m pre
      (initState symbol date) hpreok
    have hfailstep : applyStep invoke cfg m st2 sp =
        .error (.stageFailure sname e) := by
      cases sp with
      | stage sg =>
        simp only [stageView] at hview
        cases hview
        exact applyStep_stage_err invoke cfg m st2 sg e (hfail _ _ _)
      | debatePhase => exact absurd hview (by simp [stageView])
      | riskPhase => exact absurd hview (by simp [stageView])
      | aggregate =>
        simp only [stageView] at hview
        cases hview
        exact applyStep_aggregate_err invoke cfg m st2 e (hfail _ _ _)
    have hrun : runSteps invoke cfg m (initState symbol date) pipelinePlan =
        .error (.stageFailure sname e) := by
      rw [hsplit, runSteps_append]
      simp only [hst2]
      exact runSteps_cons_err invoke cfg m st2 sp post _ hfailstep
    unfold propagate
    simp only [hrecs, hrun]

/-- Witness for C2: the decision-completeness part at the stub run of the
entrypoint's call, and the failure part injected at the trader stage — a
later stage, after the whole analyst block and the debate sub-phase. -/
theorem propagate_contract_witness :
    demoState.decision = some demoDecision ∧
    propagate demoConfig stubTraderFailInvoke embStub (emptyStore "m")
      "NVDA" "2024-05-10" =
      (.error (.stageFailure "trader" ⟨"boom"⟩), emptyStore "m") :=
  ⟨(propagate_contract demoConfig stubOkInvoke embStub (emptyStore "m")
      "NVDA" "2024-05-10").1 demoState demoDecision rfl,
   (propagate_contract demoConfig stubTraderFailInvoke embStub (emptyStore "m")
      "NVDA" "2024-05-10").2 (Step.stage traderStage) "trader" "trader"
      ⟨"boom"⟩
      [Step.stage marketAnalystStage, Step.stage socialAnalystStage,
        Step.stage newsAnalystStage, Step.stage fundamentalsAnalystStage,
        Step.debatePhase]
      [Step.riskPhase, Step.aggregate]
      rfl rfl (by decide) (fun ti c b => rfl)
      (by
        intro r ti c b hr
        refine ⟨"fine", ?_⟩
        unfold stubTraderFailInvoke
        rw [if_neg hr])
      (by intro r hr; cases hr)⟩

/-- C3: two-run determinism — running `propagate` twice with the same
symbol/date, the same deterministic invoker and embedding function, and the
same store (no side effects carried over) yields identical `Decision` values
and identical debate and risk transcripts (indeed identical final states).
In this model `propagate` is a pure function of its inputs, so orchestration
introduces no nondeterminism of its own. -/
theorem propagate_deterministic (cfg : Config) (invoke : Invoker)
    (emb : String → List ℚ) (mem : MemoryStore) (symbol date : String)
    (st₁ : RunState) (d₁ : Decision) (st₂ : RunState) (d₂ : Decision)
    (h₁ : (propagate cfg invoke emb mem symbol date).1 = .ok (st₁, d₁))
    (h₂ : (propagate cfg invoke emb mem symbol date).1 = .ok (st₂, d₂)) :
    d₁ = d₂ ∧ st₁.debate_transcript = st₂.debate_transcript ∧
      st₁.risk_transcript = st₂.risk_transcript ∧ st₁ = st₂ := by
  have h := h₁.symm.trans h₂
  cases h
  exact ⟨rfl, rfl, rfl, rfl⟩

/-- Witness for C3 at the entrypoint's stub run. -/
theorem propagate_deterministic_witness :
    demoDecision = demoDecision ∧
    demoState.debate_transcript = demoState.debate_transcript ∧
    demoState.risk_transcript = demoState.risk_transcript ∧
    demoState = demoState :=
  propagate_deterministic demoConfig stubOkInvoke embStub (emptyStore "m")
    "NVDA" "2024-05-10" demoState demoDecision demoState demoDecision rfl rfl

/-- C7: injecting an `InvocationError` on the third analyst stage (the news
analyst) aborts the run with `StageFailure{stage_name = news_analyst, cause}`
— a stage failure, not a debate failure, raised at a plan position strictly
before the debate sub-phase — and returns the Memory Store completely
untouched (no `record_decision` call happens). -/
theorem third_analyst_failure (cfg : Config) (invoke : Invoker)
    (emb : String → List ℚ) (mem : MemoryStore) (symbol date : String)
    (e : InvocationError)
    (hwf : ∀ r ∈ mem.records, r.embedding_space = mem.embedding_space)
    (hfail : ∀ ti c b, invoke "news_analyst" ti c b = .error e)
    (hok : ∀ r ti c b, r ≠ "news_analyst" → ∃ s, invoke r ti c b = .ok s) :
    propagate cfg invoke emb mem symbol date =
      (.error (.stageFailure "news_analyst" e), mem) ∧
    (analystStages.map Stage.name)[2]? = some "news_analyst" ∧
    (pipelinePlan.takeWhile (fun sp => sp != Step.debatePhase)).contains
      (Step.stage newsAnalystStage) = true := by
  refine ⟨?_, by decide, by decide⟩
  have hrecs : retrieve_similar emb mem (situationOf symbol date) retrieveK =
      .ok ((List.insertionSort (ranksBefore (emb (situationOf symbol date)))
        mem.records).take retrieveK) := by
    unfold retrieve_similar
    rw [if_pos]
    apply List.all_eq_true.mpr
    intro r hr
    exact beq_iff_eq.mpr (hwf r hr)
  set m := memoryContext ((List.insertionSort
    (ranksBefore (emb (situationOf symbol date))) mem.records).take retrieveK)
    with hm
  set st0 := initState symbol date with hst0
  obtain ⟨t1, ht1⟩ := hok "market_analyst" Tier.quick (stageContext m st0) true
    (by decide)
  set st1 : RunState :=
    { st0 with stage_outputs := st0.stage_outputs ++ [("market_analyst", t1)] }
    with hst1
  obtain ⟨t2, ht2⟩ := hok "social_analyst" Tier.quick (stageContext m st1) true
    (by decide)
  set st2 : RunState :=
    { st1 with stage_outputs := st1.stage_outputs ++ [("social_analyst", t2)] }
    with hst2
  have hrun : runSteps invoke cfg m st0 pipelinePlan =
      .error (.stageFailure "news_analyst" e) := by
    have hplan : pipelinePlan = Step.stage marketAnalystStage ::
        (Step.stage socialAnalystStage :: Step.stage newsAnalystStage ::
          Step.stage fundamentalsAnalystStage :: Step.debatePhase ::
          Step.stage traderStage :: Step.riskPhase :: [Step.aggregate]) := rfl
    rw [hplan]
    rw [runSteps_cons_ok _ _ _ _ _ st1 _
      (applyStep_stage_ok _ _ _ _ marketAnalystStage t1 ht1)]
    rw [runSteps_cons_ok _ _ _ _ _ st2 _
      (applyStep_stage_ok _ _ _ _ socialAnalystStage t2 ht2)]
    rw [runSteps_cons_err _ _ _ _ _ _ _
      (applyStep_stage_err _ _ _ _ newsAnalystStage _ (hfail _ _ _))]
    rfl
  unfold propagate
  simp only [hrecs, hrun]

/-- Witness for C7 with an invoker failing exactly on the news analyst. -/
theorem third_analyst_failure_witness :
    propagate demoConfig stubNewsFailInvoke embStub (emptyStore "m")
      "NVDA" "2024-05-10" =
      (.error (.stageFailure "news_analyst" ⟨"injected"⟩), emptyStore "m") ∧
    (analystStages.map Stage.name)[2]? = some "news_analyst" ∧
    (pipelinePlan.takeWhile (fun sp => sp != Step.debatePhase)).contains
      (Step.stage newsAnalystStage) = true :=
  third_analyst_failure demoConfig stubNewsFailInvoke embStub (emptyStore "m")
    "NVDA" "2024-05-10" ⟨"injected"⟩ (by intro r hr; cases hr)
    (fun ti c b => rfl)
    (by
      intro r ti c b hr
      refine ⟨"fine", ?_⟩
      unfold stubNewsFailInvoke
      rw [if_neg hr])

/-- C8: a cold-start run against an empty Memory Store succeeds — retrieval
returns the empty list rather than an error, and `propagate` (under any
invoker whose calls succeed) returns a decision-carrying result. -/
theorem cold_start (cfg : Config) (invoke : Invoker) (emb : String → List ℚ)
    (symbol date space : String)
    (hok : ∀ r ti c b, ∃ s, invoke r ti c b = .ok s) :
    retrieve_similar emb (emptyStore space) (situationOf symbol date)
      retrieveK = .ok [] ∧
    ∃ st d, (propagate cfg invoke emb (emptyStore space) symbol date).1 =
      .ok (st, d) ∧ st.decision = some d := by
  constructor
  · rfl
  · obtain ⟨st, hst⟩ := runSteps_total invoke cfg (memoryContext []) hok
      pipelinePlan (initState symbol date)
    obtain ⟨d, hd⟩ := runSteps_pipeline_decision invoke cfg (memoryContext [])
      (initState symbol date) st hst
    refine ⟨st, d, ?_, hd⟩
    have hr : retrieve_similar emb (emptyStore space)
        (situationOf symbol date) retrieveK = .ok [] := rfl
    unfold propagate
    simp only [hr, hst, hd]

/-- Witness for C8 at the entrypoint's inputs with the stub invoker. -/
theorem cold_start_witness :
    retrieve_similar embStub (emptyStore "m") (situationOf "NVDA" "2024-05-10")
      retrieveK = .ok [] ∧
    ∃ st d, (propagate demoConfig stubOkInvoke embStub (emptyStore "m")
      "NVDA" "2024-05-10").1 = .ok (st, d) ∧ st.decision = some d :=
  cold_start demoConfig stubOkInvoke embStub "NVDA" "2024-05-10" "m"
    (fun _ _ _ _ => ⟨"the consensus is HOLD", rfl⟩)

/-- C9: run-state invariants — every successful pipeline step only appends to
`stage_outputs` (one entry, under the step's own name, never overwriting),
only appends to the debate and risk transcripts, and leaves `decision`
unchanged unless it is the final aggregation step, which sets it; moreover a
completed run's stage-output names are exactly the pipeline plan's names, with
no duplicates (each stage wrote exactly once), and the returned decision is
set. -/
theorem run_state_invariants (invoke : Invoker) (cfg : Config)
    (memCtx : String) :
    (∀ st sp st', applyStep invoke cfg memCtx st sp = .ok st' →
      st.stage_outputs <+: st'.stage_outputs ∧
      st.debate_transcript <+: st'.debate_transcript ∧
      st.risk_transcript <+: st'.risk_transcript ∧
      (sp ≠ Step.aggregate → st'.decision = st.decision) ∧
      (sp = Step.aggregate → ∃ d, st'.decision = some d) ∧
      st'.stage_outputs.map Prod.fst =
        st.stage_outputs.map Prod.fst ++ stepNames sp) ∧
    (∀ (emb : String → List ℚ) (mem : MemoryStore) (symbol date : String)
      (st : RunState) (d : Decision),
      (propagate cfg invoke emb mem symbol date).1 = .ok (st, d) →
      st.stage_outputs.map Prod.fst = planNames ∧
      (st.stage_outputs.map Prod.fst).Nodup ∧ st.decision = some d) := by
  constructor
  · intro st sp st' h
    exact applyStep_effects invoke cfg memCtx st sp st' h
  · intro emb mem symbol date st d h
    unfold propagate at h
    split at h
    · exact absurd h (by simp)
    rename_i recs hrecs
    split at h
    · exact absurd h (by simp)
    rename_i st2 hrun
    split at h
    · exact absurd h (by simp)
    rename_i d2 hdec
    have h' : Except.ok (ε := RunError) (st2, d2) = .ok (st, d) := h
    cases h'
    have hnames := runSteps_names invoke cfg (memoryContext recs) pipelinePlan
      (initState symbol date) st hrun
    simp only [initState, List.map_nil, List.nil_append] at hnames
    refine ⟨hnames, ?_, hdec⟩
    rw [hnames]
    show planNames.Nodup
    decide

/-- Witness for C9: the per-step part at the first analyst stage under the
stub invoker, and the whole-run part at the entrypoint's stub run. -/
theorem run_state_invariants_witness :
    ((initState "NVDA" "2024-05-10").stage_outputs <+: demoStep1.stage_outputs ∧
     (initState "NVDA" "2024-05-10").debate_transcript <+:
       demoStep1.debate_transcript ∧
     (initState "NVDA" "2024-05-10").risk_transcript <+:
       demoStep1.risk_transcript ∧
     (Step.stage marketAnalystStage ≠ Step.aggregate →
       demoStep1.decision = (initState "NVDA" "2024-05-10").decision) ∧
     (Step.stage marketAnalystStage = Step.aggregate →
       ∃ d, demoStep1.decision = some d) ∧
     demoStep1.stage_outputs.map Prod.fst =
       (initState "NVDA" "2024-05-10").stage_outputs.map Prod.fst ++
         stepNames (Step.stage marketAnalystStage)) ∧
    (demoState.stage_outputs.map Prod.fst = planNames ∧
     (demoState.stage_outputs.map Prod.fst).Nodup ∧
     demoState.decision = some demoDecision) :=
  ⟨(run_state_invariants stubOkInvoke demoConfig "mem").1
      (initState "NVDA" "2024-05-10") (Step.stage marketAnalystStage)
      demoStep1 rfl,
   (run_state_invariants stubOkInvoke demoConfig "mem").2 embStub
      (emptyStore "m") "NVDA" "2024-05-10" demoState demoDecision rfl⟩

/-- C10: the public `propagate` operation accepts its date argument as a
plain ISO-8601 string — exactly what src/main.py passes with
`ta.propagate("NVDA", "2024-05-10")` — and for that string input still
returns a pair whose second component is the decision; no date object is
enforced at the call boundary (the model's `date` parameter is a string,
mirroring the call site). -/
theorem propagate_accepts_string_date :
    ((propagate demoConfig stubOkInvoke embStub (emptyStore "m")
      "NVDA" "2024-05-10").1).map
        (fun p => (p.1.symbol, p.1.date, p.1.decision.isSome)) =
      .ok ("NVDA", "2024-05-10", true) := rfl

end TradingAgents
